import Mathlib

/-!
Shallow embedding of the in-memory filesystem inode from
samples/memfs/inode.go: the data model (attributes, the directory entry
table with stable cursor offsets, the file content buffer), its
operations, and the invariant check run at every exclusive-lock release.

Modelling conventions:
- Go panics are modelled as a none result (Option).
- The clock is passed explicitly: every mutating operation takes the
  current time as a natural number.
- Byte buffers are lists of naturals; the Go nil / non-nil distinction
  for the contents slice is tracked with Option (the invariant check
  inspects it).  For the entries slice the distinction is collapsed to
  the empty list, which is observationally equivalent for every
  operation modelled here.
- The dirent serialization routine (fuseutil.AppendDirent) is outside
  this file's source; per the spec it is an opaque per-entry
  serializer, so ReadDir is parameterized by a function
  ser : Dirent -> List Nat.
-/

namespace Memfs

/-- Directory entry types from fuseutil; unknown (DT_Unknown) marks unused
slots ("holes") in a directory's entry table. -/
inductive DirentType where
  | unknown
  | file
  | directory
deriving DecidableEq

/-- One directory entry (fuseutil.Dirent): child inode id, name, entry type
and the 1-based cursor offset exposed to readdir.  The Go field Type is
rendered dtype because Type is reserved in Lean. -/
structure Dirent where
  inode : Nat
  name : String
  dtype : DirentType
  offset : Nat
deriving DecidableEq

/-- The inode state (struct inode): kind flag, link count, attributes,
directory entries and file contents. -/
structure Inode where
  dir : Bool
  linkCount : Int
  attrSize : Nat
  attrMode : Nat
  attrMtime : Nat
  attrCrtime : Nat
  entries : List Dirent
  contents : Option (List Nat)
deriving DecidableEq

/-- Length of the (possibly nil) contents slice, len(inode.contents). -/
def conLen (c : Option (List Nat)) : Nat := (c.getD []).length

/-- Byte view of the (possibly nil) contents slice. -/
def conBytes (c : Option (List Nat)) : List Nat := c.getD []

/-- Go slicing c[:n] for n at most len(c): slicing nil yields nil. -/
def sliceTo (c : Option (List Nat)) (n : Nat) : Option (List Nat) :=
  c.map (List.take n)

/-- Go os.ModeDir bit (1 shifted left 31 in the 32-bit FileMode). -/
def modeDir : Nat := 2 ^ 31

/-- Go os.ModePerm, the permission bits 0o777. -/
def modePerm : Nat := 511

/-- Complement mask of ModePerm and ModeDir inside a 32-bit FileMode. -/
def modeComplementMask : Nat := 2 ^ 32 - 1 - (modePerm ||| modeDir)

/-- The entry-offset invariant checked per index by checkInvariants:
entries[i].Offset == i+1 for every i. -/
def offsetsOk (l : List Dirent) : Bool :=
  (List.range l.length).all fun i => ((l[i]?).map fun e => e.offset == i + 1).getD true

/-- The invariant function installed on the inode's mutex
(inode.checkInvariants); true means every check passes, false means the
Go code panics. -/
def checkInvariants (ino : Inode) : Bool :=
  decide (0 ≤ ino.linkCount) &&
  ((ino.attrMode &&& modeComplementMask) == 0) &&
  (ino.dir == ((ino.attrMode &&& modeDir) == modeDir)) &&
  (if ino.dir then
    ino.contents.isNone &&
    offsetsOk ino.entries &&
    decide (((ino.entries.filter fun e => e.dtype != DirentType.unknown).map
      fun e => e.name).Nodup)
  else
    ino.entries.isEmpty) &&
  (ino.attrSize == conLen ino.contents)

/-- Index of the first entry with the given name (the loop body of
inode.findChild); the Go wrapper panics on a non-directory, which the
callers below model. -/
def findChildIdx (l : List Dirent) (name : String) : Option Nat :=
  List.findIdx? (fun e => e.name == name) l

/-- inode.LookUpChild: find an entry for the child name and return its
inode id together with the ok flag; none models the findChild panic on a
non-directory. -/
def lookUpChild (ino : Inode) (name : String) : Option (Nat × Bool) :=
  if ino.dir = false then none
  else
    match findChildIdx ino.entries name with
    | some i => some (((ino.entries[i]?).map fun e => e.inode).getD 0, true)
    | none => some (0, false)

/-- The entry-placement loop of inode.AddChild together with its deferred
offset fixup: walk the entries from index idx, overwrite the first slot
of unknown type in place, else append at the end; the written entry gets
offset index+1. -/
def addChildEntries (id : Nat) (name : String) (dt : DirentType) :
    List Dirent → Nat → List Dirent
  | [], idx => [⟨id, name, dt, idx + 1⟩]
  | e :: rest, idx =>
    if e.dtype = DirentType.unknown then ⟨id, name, dt, idx + 1⟩ :: rest
    else e :: addChildEntries id name dt rest (idx + 1)

/-- inode.AddChild: refresh the modification time and place the new entry
via addChildEntries. -/
def addChild (now : Nat) (ino : Inode) (id : Nat) (name : String)
    (dt : DirentType) : Inode :=
  { ino with attrMtime := now, entries := addChildEntries id name dt ino.entries 0 }

/-- inode.RemoveChild: refresh the modification time, find the entry by
name and overwrite it with a hole marker keeping its offset; none models
the panic (unknown child, or findChild on a non-directory). -/
def removeChild (now : Nat) (ino : Inode) (name : String) : Option Inode :=
  if ino.dir = false then none
  else
    match findChildIdx ino.entries name with
    | none => none
    | some i =>
      some { ino with
               attrMtime := now
               entries := ino.entries.set i ⟨0, "", DirentType.unknown, i + 1⟩ }

/-- The loop of inode.ReadDir over the entry suffix starting at the
request offset: skip unknown entries, append each used entry's
serialized form, and after an append that exceeds the size bound trim to
the bound and stop. -/
def readDirGo (ser : Dirent → List Nat) (size : Nat) :
    List Dirent → List Nat → List Nat
  | [], data => data
  | e :: rest, data =>
    if e.dtype = DirentType.unknown then readDirGo ser size rest data
    else
      let data' := data ++ ser e
      if size < data'.length then data'.take size
      else readDirGo ser size rest data'

/-- inode.ReadDir: serve a ReadDir request from the given offset with the
given size bound; none models the panic on a non-directory. -/
def readDir (ser : Dirent → List Nat) (ino : Inode) (offset size : Nat) :
    Option (List Nat) :=
  if ino.dir = false then none
  else some (readDirGo ser size (ino.entries.drop offset) [])

/-- Reference description from the spec: the serialized listing of all
used entries of a suffix of the entry table, in position order, with no
size bound. -/
def unboundedReadDir (ser : Dirent → List Nat) (l : List Dirent) : List Nat :=
  ((l.filter fun e => e.dtype != DirentType.unknown).map ser).flatten

/-- Modelled from the spec: the resume cursor after one ReadDir page,
relative to the scanned suffix.  The source embeds each entry's Offset
(index+1) in its serialized form and the caller resumes at the offset of
the last entry it wholly received, so the relative cursor is the
position of the last wholly-included used entry plus one — holes after
it are re-scanned (and skipped again) on resume — and 0 when no entry
was wholly included. -/
def nextCursorGo (ser : Dirent → List Nat) (size : Nat) :
    List Dirent → Nat → Nat
  | [], _ => 0
  | e :: rest, len =>
    if e.dtype = DirentType.unknown then
      match nextCursorGo ser size rest len with
      | 0 => 0
      | m + 1 => m + 2
    else
      let len' := len + (ser e).length
      if size < len' then 0
      else
        match nextCursorGo ser size rest len' with
        | 0 => 1
        | m + 1 => m + 2

/-- Modelled from the spec: absolute resume cursor for a page read at
cursor c with the given size bound — the offset carried by the last
wholly-delivered entry of the page, or c itself when the page delivered
no whole entry. -/
def nextCursor (ser : Dirent → List Nat) (l : List Dirent) (c size : Nat) : Nat :=
  c + nextCursorGo ser size (l.drop c) 0

/-- The whole-entry part of one ReadDir page: the serialized used entries
wholly included in the page read at cursor c. -/
def pageWhole (ser : Dirent → List Nat) (l : List Dirent) (c size : Nat) : List Nat :=
  unboundedReadDir ser ((l.drop c).take (nextCursorGo ser size (l.drop c) 0))

/-- inode.ReadAt: read from the file contents at an offset into a
destination of length destLen; returns the bytes copied and the
end-of-data flag (io.EOF), or none for the panic on a directory.  The Go
function only reads the inode, so the node state is unchanged by
construction here. -/
def readAt (ino : Inode) (destLen off : Nat) : Option (List Nat × Bool) :=
  if ino.dir then none
  else if conLen ino.contents < off then some ([], true)
  else
    let n := min destLen (conLen ino.contents - off)
    some (((conBytes ino.contents).drop off).take n, decide (n < destLen))

/-- Zero-extension step of inode.WriteAt and inode.SetAttributes: pad the
contents with zero bytes up to newLen when it is shorter. -/
def extendTo (c : Option (List Nat)) (newLen : Nat) : Option (List Nat) :=
  if conLen c < newLen then some (conBytes c ++ List.replicate (newLen - conLen c) 0)
  else c

/-- inode.WriteAt: refresh the modification time, zero-extend the contents
so that off + len(p) fits (updating the size attribute when extending),
copy p into place at off, and return the count written; none models the
panic on a directory and the fatal short-copy check. -/
def writeAt (now : Nat) (ino : Inode) (p : List Nat) (off : Nat) :
    Option (Inode × Nat) :=
  if ino.dir then none
  else
    let newLen := off + p.length
    let c1 := extendTo ino.contents newLen
    let size1 := if conLen ino.contents < newLen then newLen else ino.attrSize
    let n := min (conLen c1 - off) p.length
    let c2 := c1.map fun l => l.take off ++ p.take n ++ l.drop (off + n)
    if n = p.length then
      some ({ ino with attrMtime := now, attrSize := size1, contents := c2 }, n)
    else none

/-- The size branch of inode.SetAttributes: when a size is given,
truncate (Go contents[:intSize]) or zero-extend the contents to exactly
that length and set the size attribute. -/
def applySize (ino1 : Inode) : Option Nat → Inode
  | none => ino1
  | some s =>
    if s ≤ conLen ino1.contents then
      { ino1 with contents := sliceTo ino1.contents s, attrSize := s }
    else
      { ino1 with
          contents := some (conBytes ino1.contents ++
            List.replicate (s - conLen ino1.contents) 0)
          attrSize := s }

/-- The mode branch of inode.SetAttributes. -/
def applyMode (ino2 : Inode) : Option Nat → Inode
  | none => ino2
  | some m => { ino2 with attrMode := m }

/-- The mtime branch of inode.SetAttributes: an explicit value overwrites
the stamped one. -/
def applyMtime (ino3 : Inode) : Option Nat → Inode
  | none => ino3
  | some t => { ino3 with attrMtime := t }

/-- inode.SetAttributes: stamp the modification time to now, then run the
size, mode and mtime branches in the order of the source. -/
def setAttributes (now : Nat) (ino : Inode) (size? : Option Nat)
    (mode? : Option Nat) (mtime? : Option Nat) : Inode :=
  applyMtime (applyMode (applySize { ino with attrMtime := now } size?) mode?) mtime?

/-- One directory mutation for the cursor-stability claim: an AddChild or
a RemoveChild request. -/
inductive DirOp where
  | add (id : Nat) (name : String) (dt : DirentType)
  | del (name : String)

/-- Apply one directory mutation at the given time; none models a panic. -/
def applyOp (now : Nat) (ino : Inode) : DirOp → Option Inode
  | .add id name dt => some (addChild now ino id name dt)
  | .del name => removeChild now ino name

/-- Apply a timestamped sequence of directory mutations. -/
def applyOps (ino : Inode) : List (Nat × DirOp) → Option Inode
  | [] => some ino
  | (now, op) :: rest => (applyOp now ino op).bind fun ino2 => applyOps ino2 rest

/-- One mutation step is shape-preserving: the entry table does not
shrink, the offset invariant holds afterwards, and at most one
pre-existing slot changed (no entry was relocated). -/
def stepOk (a b : Inode) : Bool :=
  decide (a.entries.length ≤ b.entries.length) &&
  offsetsOk b.entries &&
  decide (((List.range a.entries.length).countP
    fun j => !(b.entries[j]? == a.entries[j]?)) ≤ 1)

/-- Every successful step along a mutation sequence is shape-preserving. -/
def stableAlong : Inode → List (Nat × DirOp) → Bool
  | _, [] => true
  | ino, (now, op) :: rest =>
    match applyOp now ino op with
    | none => true
    | some ino2 => stepOk ino ino2 && stableAlong ino2 rest

/-! Helper lemmas about findIdx? (with its start-index accumulator) and
the offset invariant. -/

theorem findIdx?_bounds {α : Type} (p : α → Bool) :
    ∀ (l : List α) (k j : Nat), List.findIdx? p l k = some j → k ≤ j ∧ j < k + l.length := by
  intro l
  induction l with
  | nil => intro k j h; simp [List.findIdx?] at h
  | cons e rest ih =>
    intro k j h
    rw [List.findIdx?_cons] at h
    by_cases hp : p e = true
    · rw [if_pos hp] at h
      injection h with h
      simp [List.length_cons]
      omega
    · rw [if_neg hp] at h
      have h2 := ih (k + 1) j h
      simp [List.length_cons]
      omega

theorem findIdx?_first {α : Type} (p : α → Bool) :
    ∀ (l : List α) (k i : Nat) (hi : i < l.length),
      (∀ j (hj : j < l.length), j < i → p l[j] = false) →
      p l[i] = true → List.findIdx? p l k = some (k + i) := by
  intro l
  induction l with
  | nil => intro k i hi; exact absurd hi (by simp)
  | cons e rest ih =>
    intro k i hi hbefore hp
    rw [List.findIdx?_cons]
    cases i with
    | zero =>
      rw [List.getElem_cons_zero] at hp
      rw [if_pos hp]
      simp
    | succ i' =>
      have h0 : p e = false := by
        have := hbefore 0 (by simp) (by omega)
        simpa using this
      rw [if_neg (by simp [h0])]
      have hrec := ih (k + 1) i' (by simpa using hi)
        (fun j hj hlt => by
          have := hbefore (j + 1) (by simpa using hj) (by omega)
          simpa using this)
        (by simpa using hp)
      rw [hrec]
      congr 1
      omega

theorem offsetsOk_iff (l : List Dirent) :
    offsetsOk l = true ↔ ∀ i (hi : i < l.length), l[i].offset = i + 1 := by
  unfold offsetsOk
  rw [List.all_eq_true]
  constructor
  · intro h i hi
    have h2 := h i (List.mem_range.mpr hi)
    rw [List.getElem?_eq_getElem hi] at h2
    simpa using h2
  · intro h i hi
    have hi2 := List.mem_range.mp hi
    rw [List.getElem?_eq_getElem hi2]
    simpa using h i hi2

theorem addChildEntries_eq (id : Nat) (name : String) (dt : DirentType) :
    ∀ (l : List Dirent) (k : Nat),
      addChildEntries id name dt l k =
        match List.findIdx? (fun e => e.dtype == DirentType.unknown) l k with
        | some j => l.set (j - k) ⟨id, name, dt, j + 1⟩
        | none => l ++ [⟨id, name, dt, k + l.length + 1⟩] := by
  intro l
  induction l with
  | nil => intro k; simp [addChildEntries, List.findIdx?]
  | cons e rest ih =>
    intro k
    rw [List.findIdx?_cons]
    by_cases he : e.dtype = DirentType.unknown
    · rw [if_pos (by simp [he])]
      simp [addChildEntries, he, Nat.sub_self]
    · rw [if_neg (by simp [he])]
      have hstep : addChildEntries id name dt (e :: rest) k =
          e :: addChildEntries id name dt rest (k + 1) := by
        simp [addChildEntries, he]
      rw [hstep, ih (k + 1)]
      cases hf : List.findIdx? (fun e => e.dtype == DirentType.unknown) rest (k + 1) with
      | none =>
        simp only []
        rw [List.cons_append]
        have harith : k + 1 + rest.length + 1 = k + (e :: rest).length + 1 := by
          simp [List.length_cons]
          omega
        rw [harith]
      | some j =>
        have hb := findIdx?_bounds _ rest (k + 1) j hf
        simp only []
        have harith : j - k = (j - (k + 1)) + 1 := by omega
        rw [harith, List.set_cons_succ]

/-- C2: for a directory node, AddChild with a non-Unknown entry type sets
the modification time to now and either overwrites the lowest-index slot
of unknown type in place or, when no hole exists, appends a new entry at
the end; in both cases the written entry carries cursor index+1 and
every other entry is unchanged (the entry table is exactly a pointwise
set, or an append). -/
theorem addChild_spec (now : Nat) (ino : Inode) (id : Nat) (name : String)
    (dt : DirentType) (hdir : ino.dir = true) (hdt : dt ≠ DirentType.unknown) :
    (addChild now ino id name dt).attrMtime = now ∧
    (addChild now ino id name dt).entries =
      (match List.findIdx? (fun e => e.dtype == DirentType.unknown) ino.entries with
       | some j => ino.entries.set j ⟨id, name, dt, j + 1⟩
       | none => ino.entries ++ [⟨id, name, dt, ino.entries.length + 1⟩]) := by
  refine ⟨rfl, ?_⟩
  show addChildEntries id name dt ino.entries 0 = _
  rw [addChildEntries_eq]
  cases hf : List.findIdx? (fun e => e.dtype == DirentType.unknown) ino.entries with
  | none => simp
  | some j => simp

/-- Concrete directory with one used entry and one hole, for witnesses. -/
def dirHole : Inode :=
  ⟨true, 1, 0, modeDir ||| 493, 0, 0,
   [⟨5, "x", DirentType.file, 1⟩, ⟨0, "", DirentType.unknown, 2⟩], none⟩

/-- Witness for C2 at a concrete directory: the hole at index 1 is
reused. -/
theorem addChild_spec_witness :
    (addChild 9 dirHole 7 "y" DirentType.file).attrMtime = 9 ∧
    (addChild 9 dirHole 7 "y" DirentType.file).entries =
      (match List.findIdx? (fun e => e.dtype == DirentType.unknown) dirHole.entries with
       | some j => dirHole.entries.set j ⟨7, "y", DirentType.file, j + 1⟩
       | none => dirHole.entries ++ [⟨7, "y", DirentType.file, dirHole.entries.length + 1⟩]) :=
  addChild_spec 9 dirHole 7 "y" DirentType.file rfl (by decide)

/-- C3: for a directory node, RemoveChild panics (none) when no entry
with the given name exists; when the first entry with that name sits at
index i, it sets the modification time and overwrites exactly that slot
with a hole marker of unknown type, inode id 0, empty name and the
preserved cursor i+1, leaving the table length and all other entries
unchanged. -/
theorem removeChild_spec (now : Nat) (ino : Inode) (name : String)
    (hdir : ino.dir = true) :
    ((∀ e ∈ ino.entries, e.name ≠ name) → removeChild now ino name = none) ∧
    (∀ i (hi : i < ino.entries.length),
       (ino.entries[i]).name = name →
       (∀ j (hj : j < ino.entries.length), j < i → (ino.entries[j]).name ≠ name) →
       removeChild now ino name =
         some { ino with
                  attrMtime := now
                  entries := ino.entries.set i ⟨0, "", DirentType.unknown, i + 1⟩ } ∧
       (ino.entries.set i ⟨0, "", DirentType.unknown, i + 1⟩).length =
         ino.entries.length) := by
  constructor
  · intro h
    have hf : findChildIdx ino.entries name = none := by
      unfold findChildIdx
      rw [List.findIdx?_eq_none_iff]
      intro x hx
      exact beq_eq_false_iff_ne.mpr (h x hx)
    simp [removeChild, hdir, hf]
  · intro i hi hname hfirst
    have hf : findChildIdx ino.entries name = some i := by
      unfold findChildIdx
      have h0 := findIdx?_first (fun e => e.name == name) ino.entries 0 i hi
        (fun j hj hlt => beq_eq_false_iff_ne.mpr (hfirst j hj hlt))
        (beq_iff_eq.mpr hname)
      simpa using h0
    refine ⟨by simp [removeChild, hdir, hf], List.length_set ..⟩

/-- Witness for C3 at a concrete directory: the entry named x at index 0
is replaced by a hole. -/
theorem removeChild_spec_witness :
    removeChild 4 dirHole "x" =
      some { dirHole with
               attrMtime := 4
               entries := dirHole.entries.set 0 ⟨0, "", DirentType.unknown, 0 + 1⟩ } ∧
    (dirHole.entries.set 0 ⟨0, "", DirentType.unknown, 0 + 1⟩).length =
      dirHole.entries.length :=
  (removeChild_spec 4 dirHole "x" rfl).2 0 (by decide) (by decide)
    (fun j hj hlt => absurd hlt (Nat.not_lt_zero j))

/-! C4: LookUpChild.  The source scans by name only; the claim's type
filter is recovered for non-empty names in states whose unknown entries
all carry the empty name. -/

theorem findIdx?_shift {α : Type} (p : α → Bool) :
    ∀ (l : List α) (k : Nat),
      List.findIdx? p l k = (List.findIdx? p l 0).map (fun j => j + k) := by
  intro l
  induction l with
  | nil => intro k; simp [List.findIdx?]
  | cons e rest ih =>
    intro k
    rw [List.findIdx?_cons, List.findIdx?_cons]
    by_cases hp : p e = true
    · simp [hp]
    · rw [if_neg hp, if_neg hp, ih (k + 1), ih 1, Option.map_map]
      cases h : List.findIdx? p rest 0 <;> simp <;> omega

theorem lookUpChild_aux (name : String) (hname : name ≠ "") :
    ∀ (l : List Dirent), (∀ e ∈ l, e.dtype = DirentType.unknown → e.name = "") →
      (match List.findIdx? (fun e => e.name == name) l with
       | some i => (((l[i]?).map fun e => e.inode).getD 0, true)
       | none => ((0 : Nat), false))
      = (match List.find? (fun e => e.name == name && e.dtype != DirentType.unknown) l with
         | some e => (e.inode, true)
         | none => ((0 : Nat), false)) := by
  intro l
  induction l with
  | nil => intro _; simp [List.findIdx?]
  | cons e rest ih =>
    intro hholes
    by_cases hn : (e.name == name) = true
    · have hused : (e.dtype != DirentType.unknown) = true := by
        have hne : e.name ≠ "" := by
          rw [beq_iff_eq.mp hn]
          exact hname
        by_cases hdt : e.dtype = DirentType.unknown
        · exact absurd (hholes e (List.mem_cons_self e rest) hdt) hne
        · simpa using hdt
      rw [List.findIdx?_cons, if_pos hn,
        List.find?_cons_of_pos rest (by simp [hn, hused])]
      simp
    · have hpe : ¬(e.name == name && e.dtype != DirentType.unknown) = true := by
        simp [hn]
      rw [List.findIdx?_cons, if_neg hn, List.find?_cons_of_neg rest hpe,
        findIdx?_shift _ rest 1]
      have ihh := ih fun x hx => hholes x (List.mem_cons_of_mem e hx)
      cases hf : List.findIdx? (fun e => e.name == name) rest 0 with
      | none =>
        rw [hf] at ihh
        simpa using ihh
      | some i =>
        rw [hf] at ihh
        simpa [List.getElem?_cons_succ] using ihh

/-- C4 amended: LookUpChild scans by name only, with no type filter; a
hole slot carries the empty name, so for every non-empty name, in any
directory state whose unknown-typed entries all have the empty name,
LookUpChild returns the inode id of the first entry whose name matches
and whose type is not Unknown with found = true, and found = false when
no such entry exists.  (A hole is reported as a match exactly for the
empty name.) -/
theorem lookUpChild_spec (ino : Inode) (name : String) (hdir : ino.dir = true)
    (hholes : ∀ e ∈ ino.entries, e.dtype = DirentType.unknown → e.name = "")
    (hname : name ≠ "") :
    lookUpChild ino name =
      some (match List.find? (fun e => e.name == name && e.dtype != DirentType.unknown)
                ino.entries with
            | some e => (e.inode, true)
            | none => (0, false)) := by
  have haux := lookUpChild_aux name hname ino.entries hholes
  cases hf : List.findIdx? (fun e => e.name == name) ino.entries with
  | none =>
    rw [hf] at haux
    simp [lookUpChild, findChildIdx, hdir, hf, ← haux]
  | some i =>
    rw [hf] at haux
    simp [lookUpChild, findChildIdx, hdir, hf, ← haux]

/-- Empty directory, the construction state of a fresh directory node. -/
def dirEmpty : Inode := ⟨true, 1, 0, modeDir ||| 493, 0, 0, [], none⟩

/-- C4 counterexample: in the reachable state holding a single hole slot
(AddChild then RemoveChild), LookUpChild on the empty name reports
found = true with inode id 0, although no entry with a matching name
and a non-Unknown type exists — the claim as stated demands
found = false here. -/
theorem lookUpChild_cex :
    applyOps dirEmpty [(1, DirOp.add 7 "a" DirentType.file), (2, DirOp.del "a")] =
      some { dirEmpty with
               attrMtime := 2
               entries := [⟨0, "", DirentType.unknown, 1⟩] } ∧
    lookUpChild { dirEmpty with
                    attrMtime := 2
                    entries := [⟨0, "", DirentType.unknown, 1⟩] } "" = some (0, true) ∧
    List.filter (fun e => e.name == "" && e.dtype != DirentType.unknown)
      [(⟨0, "", DirentType.unknown, 1⟩ : Dirent)] = [] := by
  refine ⟨by decide, by decide, by decide⟩

/-- Witness for the amended C4 at a concrete directory: the used entry
named x is found, and a fresh name is not. -/
theorem lookUpChild_spec_witness :
    lookUpChild dirHole "x" =
      some (match List.find? (fun e => e.name == "x" && e.dtype != DirentType.unknown)
                dirHole.entries with
            | some e => (e.inode, true)
            | none => (0, false)) :=
  lookUpChild_spec dirHole "x" rfl
    (by decide) (by decide)

/-! C5 and C6: ReadDir paging. -/

theorem unboundedReadDir_cons_unknown (ser : Dirent → List Nat) (e : Dirent)
    (l : List Dirent) (he : e.dtype = DirentType.unknown) :
    unboundedReadDir ser (e :: l) = unboundedReadDir ser l := by
  simp [unboundedReadDir, List.filter_cons, he]

theorem unboundedReadDir_cons_used (ser : Dirent → List Nat) (e : Dirent)
    (l : List Dirent) (he : ¬e.dtype = DirentType.unknown) :
    unboundedReadDir ser (e :: l) = ser e ++ unboundedReadDir ser l := by
  simp [unboundedReadDir, List.filter_cons, he]

theorem readDirGo_eq (ser : Dirent → List Nat) (size : Nat) :
    ∀ (l : List Dirent) (data : List Nat), data.length ≤ size →
      readDirGo ser size l data = (data ++ unboundedReadDir ser l).take size := by
  intro l
  induction l with
  | nil =>
    intro data h
    simp [readDirGo, unboundedReadDir, List.take_of_length_le h]
  | cons e rest ih =>
    intro data h
    by_cases he : e.dtype = DirentType.unknown
    · rw [show readDirGo ser size (e :: rest) data = readDirGo ser size rest data from
        by simp [readDirGo, he]]
      rw [ih data h, unboundedReadDir_cons_unknown ser e rest he]
    · rw [show readDirGo ser size (e :: rest) data =
          (if size < (data ++ ser e).length then (data ++ ser e).take size
           else readDirGo ser size rest (data ++ ser e)) from by simp [readDirGo, he]]
      rw [unboundedReadDir_cons_used ser e rest he]
      by_cases hov : size < (data ++ ser e).length
      · rw [if_pos hov, ← List.append_assoc]
        conv_rhs => rw [List.take_append_eq_append_take]
        have h0 : size - (data ++ ser e).length = 0 := by omega
        rw [h0]
        simp
      · rw [if_neg hov, ih (data ++ ser e) (Nat.le_of_not_lt hov), List.append_assoc]

theorem readDir_take (ser : Dirent → List Nat) (ino : Inode) (offset size : Nat)
    (hdir : ino.dir = true) :
    readDir ser ino offset size =
      some ((unboundedReadDir ser (ino.entries.drop offset)).take size) := by
  rw [show readDir ser ino offset size =
      some (readDirGo ser size (ino.entries.drop offset) []) from
    by simp [readDir, hdir]]
  rw [readDirGo_eq ser size _ [] (by simp)]
  simp

/-- C5: for a directory node, ReadDir returns exactly the maxBytes-prefix
of the unbounded serialized listing of the used entries from the cursor
in position order (holes skipped): when an append overshoots the bound
the buffer is trimmed to exactly maxBytes and returned, otherwise the
whole listing is returned; in particular the result never exceeds
maxBytes. -/
theorem readDir_spec (ser : Dirent → List Nat) (ino : Inode) (offset size : Nat)
    (hdir : ino.dir = true) :
    readDir ser ino offset size =
      some ((unboundedReadDir ser (ino.entries.drop offset)).take size) ∧
    ((unboundedReadDir ser (ino.entries.drop offset)).take size).length ≤ size := by
  constructor
  · exact readDir_take ser ino offset size hdir
  · rw [List.length_take]
    exact min_le_left _ _

theorem unboundedReadDir_split (ser : Dirent → List Nat) (l : List Dirent) (n : Nat) :
    unboundedReadDir ser l =
      unboundedReadDir ser (l.take n) ++ unboundedReadDir ser (l.drop n) := by
  calc unboundedReadDir ser l = unboundedReadDir ser (l.take n ++ l.drop n) := by
        rw [List.take_append_drop]
    _ = unboundedReadDir ser (l.take n) ++ unboundedReadDir ser (l.drop n) := by
        unfold unboundedReadDir
        rw [List.filter_append, List.map_append, List.flatten_append]

theorem nextCursorGo_bound (ser : Dirent → List Nat) (size : Nat) :
    ∀ (l : List Dirent) (len : Nat), len ≤ size →
      len + (unboundedReadDir ser (l.take (nextCursorGo ser size l len))).length ≤ size := by
  intro l
  induction l with
  | nil =>
    intro len h
    simpa [nextCursorGo, unboundedReadDir] using h
  | cons e rest ih =>
    intro len h
    by_cases he : e.dtype = DirentType.unknown
    · rw [show nextCursorGo ser size (e :: rest) len =
          (match nextCursorGo ser size rest len with
           | 0 => 0
           | m + 1 => m + 2) from by simp [nextCursorGo, he]]
      cases hrec : nextCursorGo ser size rest len with
      | zero =>
        simpa [unboundedReadDir] using h
      | succ m =>
        rw [show (e :: rest).take (m + 2) = e :: rest.take (m + 1) from rfl]
        rw [unboundedReadDir_cons_unknown ser _ _ he]
        have hrec2 := ih len h
        rw [hrec] at hrec2
        exact hrec2
    · rw [show nextCursorGo ser size (e :: rest) len =
          (if size < len + (ser e).length then 0
           else match nextCursorGo ser size rest (len + (ser e).length) with
                | 0 => 1
                | m + 1 => m + 2) from by simp [nextCursorGo, he]]
      by_cases hov : size < len + (ser e).length
      · rw [if_pos hov]
        simpa [unboundedReadDir] using h
      · rw [if_neg hov]
        cases hrec : nextCursorGo ser size rest (len + (ser e).length) with
        | zero =>
          rw [show (e :: rest).take 1 = [e] from rfl]
          rw [unboundedReadDir_cons_used ser _ _ he]
          have hfit := Nat.le_of_not_lt hov
          simp [unboundedReadDir]
          omega
        | succ m =>
          rw [show (e :: rest).take (m + 2) = e :: rest.take (m + 1) from rfl]
          rw [unboundedReadDir_cons_used ser _ _ he]
          have hrec2 := ih (len + (ser e).length) (Nat.le_of_not_lt hov)
          rw [hrec] at hrec2
          rw [List.length_append]
          omega

/-- C6 amended: paging round-trip.  Page 1 read at cursor c consists of
the whole serialized entries scanned up to the resume cursor plus a
possibly trimmed tail; concatenating the whole-entry part of page 1 with
an unbounded read at the resume cursor reproduces the single unbounded
read at c, and this persists under any interleaved modification (for
example AddChild and RemoveChild) that leaves every slot at index at
least the resume cursor unchanged.  (An interleaved AddChild that
reuses a hole at or past the resume cursor inserts an entry the single
read did not report, so the unrestricted claim fails; see the
counterexample.) -/
theorem readDir_paging (ser : Dirent → List Nat) (ino : Inode) (c size : Nat)
    (entries2 : List Dirent) (hdir : ino.dir = true)
    (h2 : entries2.drop (nextCursor ser ino.entries c size) =
          ino.entries.drop (nextCursor ser ino.entries c size)) :
    pageWhole ser ino.entries c size ++
        unboundedReadDir ser (entries2.drop (nextCursor ser ino.entries c size)) =
      unboundedReadDir ser (ino.entries.drop c) ∧
    readDir ser ino c size =
      some ((pageWhole ser ino.entries c size ++
        unboundedReadDir ser (entries2.drop (nextCursor ser ino.entries c size))).take size) ∧
    (pageWhole ser ino.entries c size).length ≤ size := by
  have hsplit : pageWhole ser ino.entries c size ++
      unboundedReadDir ser (entries2.drop (nextCursor ser ino.entries c size)) =
      unboundedReadDir ser (ino.entries.drop c) := by
    rw [h2]
    unfold pageWhole nextCursor
    rw [show ino.entries.drop (c + nextCursorGo ser size (ino.entries.drop c) 0) =
        (ino.entries.drop c).drop (nextCursorGo ser size (ino.entries.drop c) 0) from
      (List.drop_drop _ _ _).symm]
    exact (unboundedReadDir_split ser (ino.entries.drop c) _).symm
  refine ⟨hsplit, ?_, ?_⟩
  · rw [hsplit]
    exact readDir_take ser ino c size hdir
  · have hb := nextCursorGo_bound ser size (ino.entries.drop c) 0 (Nat.zero_le size)
    unfold pageWhole
    omega

/-- A concrete dirent serializer for witnesses: inode id, cursor offset
and name length. -/
def serNat : Dirent → List Nat := fun e => [e.inode, e.offset, e.name.length]

/-- Directory used by the paging counterexample: two used entries and a
trailing hole. -/
def dirPage : Inode :=
  ⟨true, 1, 0, modeDir ||| 493, 0, 0,
   [⟨1, "a", DirentType.file, 1⟩, ⟨2, "b", DirentType.file, 2⟩,
    ⟨0, "", DirentType.unknown, 3⟩], none⟩

/-- C6 counterexample: page 1 of size 3 at cursor 0 wholly returns entry
a and the resume cursor is 1; an interleaved AddChild of the unrelated
fresh name c reuses the hole at index 2 — past the resume cursor — so
the resumed page lists b then c, and the concatenation differs from the
single unbounded ReadDir of the directory at cursor 0. -/
theorem readDir_paging_cex :
    readDir serNat dirPage 0 3 = some [1, 1, 1] ∧
    nextCursor serNat dirPage.entries 0 3 = 1 ∧
    pageWhole serNat dirPage.entries 0 3 = [1, 1, 1] ∧
    List.filter (fun e => e.name == "c") dirPage.entries = [] ∧
    (addChild 9 dirPage 3 "c" DirentType.file).entries =
      [⟨1, "a", DirentType.file, 1⟩, ⟨2, "b", DirentType.file, 2⟩,
       ⟨3, "c", DirentType.file, 3⟩] ∧
    pageWhole serNat dirPage.entries 0 3 ++
        unboundedReadDir serNat
          ((addChild 9 dirPage 3 "c" DirentType.file).entries.drop 1) =
      [1, 1, 1, 2, 2, 1, 3, 3, 1] ∧
    unboundedReadDir serNat (dirPage.entries.drop 0) = [1, 1, 1, 2, 2, 1] ∧
    ([1, 1, 1, 2, 2, 1, 3, 3, 1] : List Nat) ≠ [1, 1, 1, 2, 2, 1] := by
  exact ⟨by decide, by decide, by decide, by decide, by decide, by decide,
    by decide, by decide⟩

/-- Witness for the amended C6: an interleaved RemoveChild of the name a
(seated at index 0, before the resume cursor 1) leaves the suffix from
the resume cursor unchanged, and the round-trip equality holds. -/
theorem readDir_paging_witness :
    pageWhole serNat dirPage.entries 0 3 ++
        unboundedReadDir serNat
          (((removeChild 9 dirPage "a").getD dirPage).entries.drop
            (nextCursor serNat dirPage.entries 0 3)) =
      unboundedReadDir serNat (dirPage.entries.drop 0) ∧
    readDir serNat dirPage 0 3 =
      some ((pageWhole serNat dirPage.entries 0 3 ++
        unboundedReadDir serNat
          (((removeChild 9 dirPage "a").getD dirPage).entries.drop
            (nextCursor serNat dirPage.entries 0 3))).take 3) ∧
    (pageWhole serNat dirPage.entries 0 3).length ≤ 3 :=
  readDir_paging serNat dirPage 0 3 ((removeChild 9 dirPage "a").getD dirPage).entries
    rfl (by decide)

/-- Witness for C5 at a concrete directory: the single used entry is
serialized and trimmed to the two-byte bound. -/
theorem readDir_spec_witness :
    readDir serNat dirHole 0 2 =
      some ((unboundedReadDir serNat (dirHole.entries.drop 0)).take 2) ∧
    ((unboundedReadDir serNat (dirHole.entries.drop 0)).take 2).length ≤ 2 :=
  readDir_spec serNat dirHole 0 2 rfl

/-! C1: cursor stability under AddChild/RemoveChild sequences. -/

theorem countP_le_one_of (p : Nat → Bool) (j : Nat) :
    ∀ (l : List Nat), l.Nodup → (∀ i ∈ l, p i = true → i = j) → l.countP p ≤ 1 := by
  intro l
  induction l with
  | nil => intro _ _; simp
  | cons a t ih =>
    intro hnd huni
    rw [List.countP_cons]
    by_cases hpa : p a = true
    · have haj : a = j := huni a (List.mem_cons_self a t) hpa
      have ht : t.countP p = 0 := by
        rw [List.countP_eq_zero]
        intro x hx hpx
        have hxj : x = j := huni x (List.mem_cons_of_mem a hx) hpx
        subst haj
        rw [hxj] at hx
        exact (List.nodup_cons.mp hnd).1 hx
      rw [ht, if_pos hpa]
    · rw [if_neg hpa]
      have := ih (List.nodup_cons.mp hnd).2
        (fun i hi hp => huni i (List.mem_cons_of_mem a hi) hp)
      omega

theorem countP_set_le_one (l : List Dirent) (i : Nat) (a : Dirent) :
    ((List.range l.length).countP fun j => !((l.set i a)[j]? == l[j]?)) ≤ 1 := by
  apply countP_le_one_of _ i _ (List.nodup_range _)
  intro x _ hpx
  by_contra hne
  rw [List.getElem?_set, if_neg (fun h => hne h.symm)] at hpx
  simp at hpx

theorem countP_append_zero (l es : List Dirent) :
    ((List.range l.length).countP fun j => !((l ++ es)[j]? == l[j]?)) = 0 := by
  rw [List.countP_eq_zero]
  intro x hx
  have hxl : x < l.length := List.mem_range.mp hx
  rw [List.getElem?_append]
  simp [hxl]

theorem offsetsOk_set (l : List Dirent) (i : Nat) (a : Dirent)
    (hoff : offsetsOk l = true) (ha : a.offset = i + 1) :
    offsetsOk (l.set i a) = true := by
  rw [offsetsOk_iff] at hoff ⊢
  intro x hx
  rw [List.length_set] at hx
  rw [List.getElem_set]
  by_cases hix : i = x
  · rw [if_pos hix]
    subst hix
    exact ha
  · rw [if_neg hix]
    exact hoff x hx

theorem offsetsOk_append_one (l : List Dirent) (a : Dirent)
    (hoff : offsetsOk l = true) (ha : a.offset = l.length + 1) :
    offsetsOk (l ++ [a]) = true := by
  rw [offsetsOk_iff] at hoff ⊢
  intro x hx
  rw [List.length_append, List.length_singleton] at hx
  by_cases hxl : x < l.length
  · rw [List.getElem_append x (by simp; omega)]
    rw [dif_pos hxl]
    exact hoff x hxl
  · have hx1 : x = l.length := by omega
    subst hx1
    rw [List.getElem_concat_length l a _ rfl]
    exact ha

theorem stepOk_addChild (now : Nat) (ino : Inode) (id : Nat) (name : String)
    (dt : DirentType) (hoff : offsetsOk ino.entries = true) :
    stepOk ino (addChild now ino id name dt) = true ∧
    offsetsOk (addChild now ino id name dt).entries = true ∧
    ino.entries.length ≤ (addChild now ino id name dt).entries.length := by
  cases hf : List.findIdx? (fun e => e.dtype == DirentType.unknown) ino.entries with
  | some j =>
    have he2 : (addChild now ino id name dt).entries =
        ino.entries.set j ⟨id, name, dt, j + 1⟩ := by
      show addChildEntries id name dt ino.entries 0 = _
      rw [addChildEntries_eq, hf]
      simp
    have h1 : offsetsOk (addChild now ino id name dt).entries = true := by
      rw [he2]
      exact offsetsOk_set ino.entries j _ hoff rfl
    have h2 : (addChild now ino id name dt).entries.length = ino.entries.length := by
      rw [he2, List.length_set]
    refine ⟨?_, h1, by omega⟩
    simp only [stepOk, Bool.and_eq_true, decide_eq_true_eq]
    refine ⟨⟨by omega, h1⟩, ?_⟩
    rw [he2]
    exact countP_set_le_one ino.entries j _
  | none =>
    have he2 : (addChild now ino id name dt).entries =
        ino.entries ++ [⟨id, name, dt, ino.entries.length + 1⟩] := by
      show addChildEntries id name dt ino.entries 0 = _
      rw [addChildEntries_eq, hf]
      simp
    have h1 : offsetsOk (addChild now ino id name dt).entries = true := by
      rw [he2]
      exact offsetsOk_append_one ino.entries _ hoff rfl
    have h2 : (addChild now ino id name dt).entries.length = ino.entries.length + 1 := by
      rw [he2]
      simp
    refine ⟨?_, h1, by omega⟩
    simp only [stepOk, Bool.and_eq_true, decide_eq_true_eq]
    refine ⟨⟨by omega, h1⟩, ?_⟩
    rw [he2, countP_append_zero]
    omega

theorem stepOk_removeChild (now : Nat) (ino ino2 : Inode) (name : String)
    (hoff : offsetsOk ino.entries = true)
    (h : removeChild now ino name = some ino2) :
    stepOk ino ino2 = true ∧ offsetsOk ino2.entries = true ∧
    ino.entries.length ≤ ino2.entries.length := by
  unfold removeChild at h
  by_cases hdir : ino.dir = false
  · rw [if_pos hdir] at h
    exact absurd h (by simp)
  · rw [if_neg hdir] at h
    cases hf : findChildIdx ino.entries name with
    | none =>
      rw [hf] at h
      exact absurd h (by simp)
    | some i =>
      rw [hf] at h
      injection h with h
      have hE : ino2.entries = ino.entries.set i ⟨0, "", DirentType.unknown, i + 1⟩ := by
        rw [← h]
      have h1 : offsetsOk ino2.entries = true := by
        rw [hE]
        exact offsetsOk_set ino.entries i _ hoff rfl
      have h2 : ino2.entries.length = ino.entries.length := by
        rw [hE, List.length_set]
      refine ⟨?_, h1, by omega⟩
      simp only [stepOk, Bool.and_eq_true, decide_eq_true_eq]
      refine ⟨⟨by omega, h1⟩, ?_⟩
      rw [hE]
      exact countP_set_le_one ino.entries i _

/-- C1: for a directory node satisfying the offset invariant, after any
sequence of AddChild/RemoveChild operations that completes without a
panic, every entry still satisfies entries[i].Offset = i+1, the backing
sequence has not shrunk, and along the way every single step left the
offset invariant intact, never shrank the table, and changed at most one
pre-existing slot (no entry was ever relocated to a different index). -/
theorem cursor_stability (ino : Inode) (ops : List (Nat × DirOp)) (ino' : Inode)
    (hdir : ino.dir = true) (hoff : offsetsOk ino.entries = true)
    (happ : applyOps ino ops = some ino') :
    offsetsOk ino'.entries = true ∧
    ino.entries.length ≤ ino'.entries.length ∧
    stableAlong ino ops = true := by
  clear hdir
  induction ops generalizing ino with
  | nil =>
    simp [applyOps] at happ
    subst happ
    exact ⟨hoff, le_refl _, rfl⟩
  | cons hd rest ih =>
    obtain ⟨now, op⟩ := hd
    rw [show applyOps ino ((now, op) :: rest) =
        (applyOp now ino op).bind (fun i2 => applyOps i2 rest) from rfl] at happ
    cases hstep : applyOp now ino op with
    | none =>
      rw [hstep] at happ
      exact absurd happ (by simp)
    | some ino2 =>
      rw [hstep] at happ
      have happ2 : applyOps ino2 rest = some ino' := happ
      have hstepok : stepOk ino ino2 = true ∧ offsetsOk ino2.entries = true ∧
          ino.entries.length ≤ ino2.entries.length := by
        cases op with
        | add id name dt =>
          have h2 : ino2 = addChild now ino id name dt := by
            have := hstep.symm
            simpa [applyOp] using this
          subst h2
          exact stepOk_addChild now ino id name dt hoff
        | del name =>
          exact stepOk_removeChild now ino ino2 name hoff
            (by simpa [applyOp] using hstep)
      obtain ⟨hso, hoff2, hlen2⟩ := hstepok
      have hrest := ih ino2 hoff2 happ2
      refine ⟨hrest.1, le_trans hlen2 hrest.2.1, ?_⟩
      rw [show stableAlong ino ((now, op) :: rest) =
          (match applyOp now ino op with
           | none => true
           | some i2 => stepOk ino i2 && stableAlong i2 rest) from rfl]
      rw [hstep]
      simp [hso, hrest.2.2]

/-- Operation sequence for the C1 witness: the spec's concrete scenario
of adds, a removal, and a hole-reusing add. -/
def opsW : List (Nat × DirOp) :=
  [(1, DirOp.add 1 "a" DirentType.file), (2, DirOp.add 2 "b" DirentType.file),
   (3, DirOp.del "a"), (4, DirOp.add 3 "c" DirentType.file)]

/-- Witness for C1: the concrete scenario from the empty directory keeps
offsets stable and every step shape-preserving. -/
theorem cursor_stability_witness :
    offsetsOk ((applyOps dirEmpty opsW).getD dirEmpty).entries = true ∧
    dirEmpty.entries.length ≤ ((applyOps dirEmpty opsW).getD dirEmpty).entries.length ∧
    stableAlong dirEmpty opsW = true :=
  cursor_stability dirEmpty opsW ((applyOps dirEmpty opsW).getD dirEmpty)
    rfl rfl (by decide)

/-! C7 and C8: the file content buffer. -/

theorem conLen_some (l : List Nat) : conLen (some l) = l.length := rfl

theorem conLen_none : conLen none = 0 := rfl

theorem conBytes_some (l : List Nat) : conBytes (some l) = l := rfl

theorem conBytes_none : conBytes none = [] := rfl

theorem readAt_eq (ino : Inode) (destLen off : Nat) (hfile : ino.dir = false) :
    readAt ino destLen off =
      (if conLen ino.contents < off then some ([], true)
       else
         some (((conBytes ino.contents).drop off).take
             (min destLen (conLen ino.contents - off)),
           decide (min destLen (conLen ino.contents - off) < destLen))) := by
  simp only [readAt]
  rw [if_neg (by rw [hfile]; exact Bool.false_ne_true)]

/-- C8: for a file node, ReadAt answers with zero bytes copied and the
end-of-data flag when the offset strictly exceeds the buffer length;
otherwise it copies exactly min(destLen, len(contents) - offset) bytes
from the buffer starting at the offset and flags end-of-data exactly
when fewer bytes were copied than destLen; it never panics on a file
(end-of-data is an ordinary result), and the embedding is pure, so the
node state is unchanged. -/
theorem readAt_spec (ino : Inode) (destLen off : Nat) (hfile : ino.dir = false) :
    (conLen ino.contents < off → readAt ino destLen off = some ([], true)) ∧
    (off ≤ conLen ino.contents →
      readAt ino destLen off =
        some (((conBytes ino.contents).drop off).take
            (min destLen (conLen ino.contents - off)),
          decide (min destLen (conLen ino.contents - off) < destLen))) ∧
    (readAt ino destLen off).isSome = true := by
  rw [readAt_eq ino destLen off hfile]
  refine ⟨fun h => by rw [if_pos h], fun h => by rw [if_neg (Nat.not_lt.mpr h)], ?_⟩
  by_cases h : conLen ino.contents < off
  · rw [if_pos h]
    rfl
  · rw [if_neg h]
    rfl

/-- Concrete two-byte file for witnesses. -/
def fileAB : Inode := ⟨false, 1, 2, 420, 0, 0, [], some [10, 20]⟩

/-- Witness for C8 at a concrete file: a short read inside the buffer and
an end-of-data read past it. -/
theorem readAt_spec_witness :
    readAt fileAB 5 1 =
      some (((conBytes fileAB.contents).drop 1).take (min 5 (conLen fileAB.contents - 1)),
        decide (min 5 (conLen fileAB.contents - 1) < 5)) ∧
    readAt fileAB 5 3 = some ([], true) ∧
    (readAt fileAB 5 1).isSome = true :=
  ⟨(readAt_spec fileAB 5 1 rfl).2.1 (by decide),
   (readAt_spec fileAB 5 3 rfl).1 (by decide),
   (readAt_spec fileAB 5 1 rfl).2.2⟩

theorem write_core (bytes1 p : List Nat) (off : Nat)
    (h : off + p.length ≤ bytes1.length) :
    (bytes1.take off ++ p.take p.length ++ bytes1.drop (off + p.length)).length =
      bytes1.length ∧
    ((bytes1.take off ++ p.take p.length ++
        bytes1.drop (off + p.length)).drop off).take p.length = p ∧
    (∀ j, j < off →
      (bytes1.take off ++ p.take p.length ++ bytes1.drop (off + p.length))[j]? =
        bytes1[j]?) := by
  have htl : (bytes1.take off).length = off := by
    rw [List.length_take]
    omega
  refine ⟨?_, ?_, ?_⟩
  · simp only [List.length_append, List.length_take, List.length_drop]
    omega
  · rw [List.take_length, List.append_assoc]
    have hd := List.drop_left (bytes1.take off) (p ++ bytes1.drop (off + p.length))
    rw [htl] at hd
    rw [hd, List.take_left]
  · intro j hj
    rw [List.append_assoc, List.getElem?_append, htl, if_pos hj, List.getElem?_take,
      if_pos hj]

theorem readAt_exact (ino2 : Inode) (w p : List Nat) (off : Nat)
    (hdir2 : ino2.dir = false) (hw : ino2.contents = some w)
    (hfit : off + p.length ≤ w.length)
    (hex : (w.drop off).take p.length = p) :
    readAt ino2 p.length off = some (p, false) := by
  rw [readAt_eq ino2 p.length off hdir2, hw, conLen_some, conBytes_some]
  rw [if_neg (by omega)]
  rw [show min p.length (w.length - off) = p.length from Nat.min_eq_left (by omega)]
  rw [hex, decide_eq_false (lt_irrefl p.length)]

theorem readAt_none (ino2 : Inode) (hdir2 : ino2.dir = false)
    (hw : ino2.contents = none) :
    readAt ino2 0 0 = some ([], false) := by
  rw [readAt_eq ino2 0 0 hdir2, hw]
  simp [conLen_none, conBytes_none]

theorem writeAt_unfold (now : Nat) (ino : Inode) (p : List Nat) (off : Nat)
    (hfile : ino.dir = false) :
    writeAt now ino p off =
      (let c1 := extendTo ino.contents (off + p.length)
       let size1 :=
         if conLen ino.contents < off + p.length then off + p.length else ino.attrSize
       let n := min (conLen c1 - off) p.length
       let c2 := c1.map fun l => l.take off ++ p.take n ++ l.drop (off + n)
       if n = p.length then
         some ({ ino with attrMtime := now, attrSize := size1, contents := c2 }, n)
       else none) := by
  simp only [writeAt]
  rw [if_neg (by rw [hfile]; exact Bool.false_ne_true)]

/-- C7: for a file node whose size attribute matches its contents, after
WriteAt(p, off) the call succeeds with p.length bytes written (the
short-copy panic branch is unreachable), the size attribute equals
max(old size, off + len(p)), the contents length likewise, any gap
between the old end of file and the offset reads back as the zero byte,
all of p sits in the buffer at the offset, and a subsequent ReadAt at
that offset for len(p) bytes returns exactly p with no end-of-data. -/
theorem writeAt_spec (now : Nat) (ino : Inode) (p : List Nat) (off : Nat)
    (hfile : ino.dir = false) (hinv : ino.attrSize = conLen ino.contents) :
    ∃ ino2, writeAt now ino p off = some (ino2, p.length) ∧
      ino2.attrSize = max ino.attrSize (off + p.length) ∧
      conLen ino2.contents = max (conLen ino.contents) (off + p.length) ∧
      (∀ j, conLen ino.contents ≤ j → j < off → (conBytes ino2.contents)[j]? = some 0) ∧
      ((conBytes ino2.contents).drop off).take p.length = p ∧
      readAt ino2 p.length off = some (p, false) := by
  have hbl : (conBytes ino.contents).length = conLen ino.contents := rfl
  by_cases hext : conLen ino.contents < off + p.length
  · have hc1 : extendTo ino.contents (off + p.length) =
        some (conBytes ino.contents ++
          List.replicate (off + p.length - conLen ino.contents) 0) := by
      rw [extendTo, if_pos hext]
    have hb1len : (conBytes ino.contents ++
        List.replicate (off + p.length - conLen ino.contents) 0).length =
        off + p.length := by
      rw [List.length_append, List.length_replicate]
      omega
    have hcore := write_core
      (conBytes ino.contents ++ List.replicate (off + p.length - conLen ino.contents) 0)
      p off (by omega)
    rw [writeAt_unfold now ino p off hfile, hc1]
    simp only [conLen_some, Option.map_some', hb1len, Nat.add_sub_cancel_left,
      min_self, if_pos hext, if_true]
    refine ⟨_, rfl, ?_, ?_, ?_, hcore.2.1, ?_⟩
    · show off + p.length = max ino.attrSize (off + p.length)
      rw [Nat.max_eq_right (show ino.attrSize ≤ off + p.length by omega)]
    · show conLen (some _) = _
      rw [conLen_some, hcore.1, hb1len, Nat.max_eq_right (by omega)]
    · intro j hj1 hj2
      have hstep := hcore.2.2 j hj2
      show (conBytes (some _))[j]? = some 0
      rw [conBytes_some, hstep, List.getElem?_append_right (by omega),
        List.getElem?_replicate, if_pos (by omega)]
    · exact readAt_exact _ _ p off hfile rfl
        (by rw [hcore.1, hb1len]) hcore.2.1
  · cases hcon : ino.contents with
    | none =>
      have h0 : conLen ino.contents = 0 := by rw [hcon]; rfl
      have hoff : off = 0 := by omega
      have hp : p = [] := List.eq_nil_of_length_eq_zero (by omega)
      subst hoff hp
      rw [writeAt_unfold now ino [] 0 hfile, hcon]
      refine ⟨_, rfl, ?_, ?_, ?_, ?_, ?_⟩
      · show ino.attrSize = max ino.attrSize (0 + (0 : Nat))
        simp
      · show conLen (none : Option (List Nat)) =
          max (conLen (none : Option (List Nat))) (0 + (0 : Nat))
        simp [conLen_none]
      · intro j hj1 hj2
        exact absurd hj2 (by omega)
      · show ((conBytes (none : Option (List Nat))).drop 0).take (0 : Nat) =
          ([] : List Nat)
        simp [conBytes_none]
      · exact readAt_none _ hfile rfl
    | some l =>
      have hsz : ino.attrSize = l.length := by
        rw [hcon] at hinv
        rw [hinv, conLen_some]
      have hll : off + p.length ≤ l.length := by
        have h1 : conLen ino.contents = l.length := by rw [hcon, conLen_some]
        omega
      have hcore := write_core l p off hll
      rw [writeAt_unfold now ino p off hfile, hcon]
      have hc1 : extendTo (some l) (off + p.length) = some l := by
        rw [extendTo, if_neg (by rw [conLen_some]; omega)]
      rw [hc1]
      simp only [conLen_some, Option.map_some']
      have hmin : min (l.length - off) p.length = p.length :=
        Nat.min_eq_right (by omega)
      rw [hmin, if_pos rfl]
      refine ⟨_, rfl, ?_, ?_, ?_, hcore.2.1, ?_⟩
      · show (if conLen (some l) < off + p.length then off + p.length
            else ino.attrSize) = max ino.attrSize (off + p.length)
        rw [conLen_some, if_neg (by omega), Nat.max_eq_left (by omega)]
      · show conLen (some (l.take off ++ p.take p.length ++ l.drop (off + p.length))) =
          max (conLen (some l)) (off + p.length)
        rw [conLen_some, conLen_some, hcore.1, Nat.max_eq_left (by omega)]
      · intro j hj1 hj2
        exfalso
        omega
      · exact readAt_exact _ _ p off hfile rfl (by rw [hcore.1]; omega) hcore.2.1

/-- Witness for C7: writing three bytes at offset 3 into the two-byte
file grows it to six bytes, zero-fills the gap byte at index 2, and the
written data reads back exactly. -/
theorem writeAt_spec_witness :
    (writeAt 9 fileAB [1, 2, 3] 3).map (fun r => r.2) = some 3 ∧
    (writeAt 9 fileAB [1, 2, 3] 3).map (fun r => r.1.attrSize) = some 6 ∧
    (writeAt 9 fileAB [1, 2, 3] 3).map (fun r => (conBytes r.1.contents)[2]?) =
      some (some 0) ∧
    (writeAt 9 fileAB [1, 2, 3] 3).map (fun r => readAt r.1 3 3) =
      some (some ([1, 2, 3], false)) := by
  obtain ⟨ino2, hw, hsize, hclen, hgap, hdt, hra⟩ :=
    writeAt_spec 9 fileAB [1, 2, 3] 3 rfl rfl
  have hra3 : readAt ino2 3 3 = some ([1, 2, 3], false) := hra
  rw [hw]
  refine ⟨rfl, ?_, ?_, ?_⟩
  · rw [Option.map_some', hsize]
    rfl
  · rw [Option.map_some', hgap 2 (by decide) (by decide)]
  · rw [Option.map_some', hra3]

/-! C9 and C10: SetAttributes. -/

theorem applySize_dir (x : Inode) (size? : Option Nat) :
    (applySize x size?).dir = x.dir := by
  cases size? with
  | none => rfl
  | some s =>
    simp only [applySize]
    by_cases hc : s ≤ conLen x.contents
    · rw [if_pos hc]
    · rw [if_neg hc]

theorem applySize_linkCount (x : Inode) (size? : Option Nat) :
    (applySize x size?).linkCount = x.linkCount := by
  cases size? with
  | none => rfl
  | some s =>
    simp only [applySize]
    by_cases hc : s ≤ conLen x.contents
    · rw [if_pos hc]
    · rw [if_neg hc]

theorem applySize_entries (x : Inode) (size? : Option Nat) :
    (applySize x size?).entries = x.entries := by
  cases size? with
  | none => rfl
  | some s =>
    simp only [applySize]
    by_cases hc : s ≤ conLen x.contents
    · rw [if_pos hc]
    · rw [if_neg hc]

theorem applySize_mtime (x : Inode) (size? : Option Nat) :
    (applySize x size?).attrMtime = x.attrMtime := by
  cases size? with
  | none => rfl
  | some s =>
    simp only [applySize]
    by_cases hc : s ≤ conLen x.contents
    · rw [if_pos hc]
    · rw [if_neg hc]

theorem applySize_mode (x : Inode) (size? : Option Nat) :
    (applySize x size?).attrMode = x.attrMode := by
  cases size? with
  | none => rfl
  | some s =>
    simp only [applySize]
    by_cases hc : s ≤ conLen x.contents
    · rw [if_pos hc]
    · rw [if_neg hc]

theorem applySize_contents (x : Inode) (s : Nat) :
    (applySize x (some s)).contents =
      (if s ≤ conLen x.contents then sliceTo x.contents s
       else some (conBytes x.contents ++ List.replicate (s - conLen x.contents) 0)) := by
  simp only [applySize]
  by_cases hc : s ≤ conLen x.contents
  · rw [if_pos hc, if_pos hc]
  · rw [if_neg hc, if_neg hc]

theorem applySize_size (x : Inode) (s : Nat) :
    (applySize x (some s)).attrSize = s := by
  simp only [applySize]
  by_cases hc : s ≤ conLen x.contents
  · rw [if_pos hc]
  · rw [if_neg hc]

theorem applyMode_mtime (x : Inode) (mode? : Option Nat) :
    (applyMode x mode?).attrMtime = x.attrMtime := by
  cases mode? <;> rfl

theorem applyMode_contents (x : Inode) (mode? : Option Nat) :
    (applyMode x mode?).contents = x.contents := by
  cases mode? <;> rfl

theorem applyMode_size (x : Inode) (mode? : Option Nat) :
    (applyMode x mode?).attrSize = x.attrSize := by
  cases mode? <;> rfl

theorem applyMode_dir (x : Inode) (mode? : Option Nat) :
    (applyMode x mode?).dir = x.dir := by
  cases mode? <;> rfl

theorem applyMode_linkCount (x : Inode) (mode? : Option Nat) :
    (applyMode x mode?).linkCount = x.linkCount := by
  cases mode? <;> rfl

theorem applyMode_entries (x : Inode) (mode? : Option Nat) :
    (applyMode x mode?).entries = x.entries := by
  cases mode? <;> rfl

theorem applyMode_mode (x : Inode) (mode? : Option Nat) :
    (applyMode x mode?).attrMode =
      (match mode? with | none => x.attrMode | some m => m) := by
  cases mode? <;> rfl

theorem applyMtime_mtime (x : Inode) (mtime? : Option Nat) :
    (applyMtime x mtime?).attrMtime =
      (match mtime? with | none => x.attrMtime | some t => t) := by
  cases mtime? <;> rfl

theorem applyMtime_contents (x : Inode) (mtime? : Option Nat) :
    (applyMtime x mtime?).contents = x.contents := by
  cases mtime? <;> rfl

theorem applyMtime_size (x : Inode) (mtime? : Option Nat) :
    (applyMtime x mtime?).attrSize = x.attrSize := by
  cases mtime? <;> rfl

theorem applyMtime_dir (x : Inode) (mtime? : Option Nat) :
    (applyMtime x mtime?).dir = x.dir := by
  cases mtime? <;> rfl

theorem applyMtime_linkCount (x : Inode) (mtime? : Option Nat) :
    (applyMtime x mtime?).linkCount = x.linkCount := by
  cases mtime? <;> rfl

theorem applyMtime_entries (x : Inode) (mtime? : Option Nat) :
    (applyMtime x mtime?).entries = x.entries := by
  cases mtime? <;> rfl

theorem applyMtime_mode (x : Inode) (mtime? : Option Nat) :
    (applyMtime x mtime?).attrMode = x.attrMode := by
  cases mtime? <;> rfl

/-- Bytes and length of the size-branch result: the buffer becomes the
old bytes truncated to s, padded with zero bytes up to exactly s. -/
theorem sizeBytes (c : Option (List Nat)) (s : Nat) :
    conBytes (if s ≤ conLen c then sliceTo c s
              else some (conBytes c ++ List.replicate (s - conLen c) 0)) =
      (conBytes c).take s ++ List.replicate (s - conLen c) 0 ∧
    conLen (if s ≤ conLen c then sliceTo c s
            else some (conBytes c ++ List.replicate (s - conLen c) 0)) = s := by
  have hbl : (conBytes c).length = conLen c := rfl
  by_cases hc : s ≤ conLen c
  · rw [if_pos hc]
    cases c with
    | none =>
      have h0 : s = 0 := by
        rw [conLen_none] at hc
        omega
      subst h0
      exact ⟨rfl, rfl⟩
    | some l =>
      rw [conLen_some] at hc
      constructor
      · rw [show sliceTo (some l) s = some (l.take s) from rfl, conBytes_some,
          conBytes_some]
        rw [show s - conLen (some l) = 0 from by rw [conLen_some]; omega]
        simp
      · rw [show sliceTo (some l) s = some (l.take s) from rfl, conLen_some,
          List.length_take]
        omega
  · rw [if_neg hc]
    constructor
    · rw [conBytes_some]
      congr 1
      rw [List.take_of_length_le (by omega)]
    · rw [conLen_some, List.length_append, List.length_replicate]
      omega

/-- C9: for a file node, SetAttributes stamps the modification time to
now and then overwrites it with the explicit mtime when given (the
explicit value wins); the explicit mode, when given, replaces the mode;
when a size is given the contents become the old bytes truncated to that
size and zero-padded to exactly that length, with the size attribute set
to match; absent parameters leave contents and size untouched. -/
theorem setAttributes_spec (now : Nat) (ino : Inode)
    (size? mode? mtime? : Option Nat) (hfile : ino.dir = false) :
    (setAttributes now ino size? mode? mtime?).attrMtime =
      (match mtime? with | none => now | some t => t) ∧
    (setAttributes now ino size? mode? mtime?).attrMode =
      (match mode? with | none => ino.attrMode | some m => m) ∧
    (∀ s, size? = some s →
      conBytes (setAttributes now ino size? mode? mtime?).contents =
        (conBytes ino.contents).take s ++
          List.replicate (s - conLen ino.contents) 0 ∧
      conLen (setAttributes now ino size? mode? mtime?).contents = s ∧
      (setAttributes now ino size? mode? mtime?).attrSize = s) ∧
    (size? = none →
      (setAttributes now ino size? mode? mtime?).contents = ino.contents ∧
      (setAttributes now ino size? mode? mtime?).attrSize = ino.attrSize) := by
  refine ⟨?_, ?_, ?_, ?_⟩
  · show (applyMtime (applyMode (applySize { ino with attrMtime := now } size?)
        mode?) mtime?).attrMtime = _
    rw [applyMtime_mtime]
    cases mtime? with
    | none =>
      show (applyMode (applySize { ino with attrMtime := now } size?) mode?).attrMtime = now
      rw [applyMode_mtime, applySize_mtime]
    | some t => rfl
  · show (applyMtime (applyMode (applySize { ino with attrMtime := now } size?)
        mode?) mtime?).attrMode = _
    rw [applyMtime_mode, applyMode_mode]
    cases mode? with
    | none =>
      show (applySize { ino with attrMtime := now } size?).attrMode = ino.attrMode
      rw [applySize_mode]
    | some m => rfl
  · intro s hs
    subst hs
    have hkey := sizeBytes ino.contents s
    refine ⟨?_, ?_, ?_⟩
    · show conBytes (applyMtime (applyMode
          (applySize { ino with attrMtime := now } (some s)) mode?) mtime?).contents = _
      rw [applyMtime_contents, applyMode_contents, applySize_contents]
      exact hkey.1
    · show conLen (applyMtime (applyMode
          (applySize { ino with attrMtime := now } (some s)) mode?) mtime?).contents = s
      rw [applyMtime_contents, applyMode_contents, applySize_contents]
      exact hkey.2
    · show (applyMtime (applyMode
          (applySize { ino with attrMtime := now } (some s)) mode?) mtime?).attrSize = s
      rw [applyMtime_size, applyMode_size, applySize_size]
  · intro hs
    subst hs
    constructor
    · show (applyMtime (applyMode
          (applySize { ino with attrMtime := now } none) mode?) mtime?).contents = _
      rw [applyMtime_contents, applyMode_contents]
      rfl
    · show (applyMtime (applyMode
          (applySize { ino with attrMtime := now } none) mode?) mtime?).attrSize = _
      rw [applyMtime_size, applyMode_size]
      rfl

/-- Witness for C9: truncating the two-byte file to one byte with an
explicit mtime override. -/
theorem setAttributes_spec_witness :
    (setAttributes 9 fileAB (some 1) none (some 77)).attrMtime = 77 ∧
    (setAttributes 9 fileAB (some 1) none (some 77)).attrMode = fileAB.attrMode ∧
    conBytes (setAttributes 9 fileAB (some 1) none (some 77)).contents =
      (conBytes fileAB.contents).take 1 ++
        List.replicate (1 - conLen fileAB.contents) 0 ∧
    conLen (setAttributes 9 fileAB (some 1) none (some 77)).contents = 1 ∧
    (setAttributes 9 fileAB (some 1) none (some 77)).attrSize = 1 := by
  obtain ⟨h1, h2, h3, h4⟩ :=
    setAttributes_spec 9 fileAB (some 1) none (some 77) rfl
  obtain ⟨h5, h6, h7⟩ := h3 1 rfl
  exact ⟨h1, h2, h5, h6, h7⟩

/-- C10: SetAttributes performs no node-kind check.  Applied to a
directory satisfying the invariants with a size strictly greater than
zero, it pads the (nil) contents buffer, leaving a non-nil contents
field on a directory, so the automatic invariant check at
exclusive-lock release fails (the process halts).  Applied to a file
satisfying the invariants, the invariant check still passes, so the
failure branch is unreachable exactly under the caller precondition
that size-bearing SetAttributes goes to file nodes. -/
theorem setAttributes_kind_unchecked :
    (∀ (ino : Inode) (now s : Nat), ino.dir = true → checkInvariants ino = true →
      0 < s →
      (setAttributes now ino (some s) none none).contents.isNone = false ∧
      checkInvariants (setAttributes now ino (some s) none none) = false) ∧
    (∀ (ino : Inode) (now s : Nat), ino.dir = false → checkInvariants ino = true →
      checkInvariants (setAttributes now ino (some s) none none) = true) := by
  constructor
  · intro ino now s hdir hck hs
    simp only [checkInvariants, hdir, Bool.and_eq_true, decide_eq_true_eq,
      if_true] at hck
    have hnone : ino.contents = none := Option.isNone_iff_eq_none.mp hck.1.2.1.1
    have hcnew : (setAttributes now ino (some s) none none).contents =
        some (List.replicate s 0) := by
      show (applySize { ino with attrMtime := now } (some s)).contents = _
      rw [applySize_contents]
      show (if s ≤ conLen ino.contents then sliceTo ino.contents s
            else some (conBytes ino.contents ++
              List.replicate (s - conLen ino.contents) 0)) = _
      rw [hnone, if_neg (show ¬s ≤ conLen none from by rw [conLen_none]; omega)]
      simp [conBytes_none, conLen_none]
    have hdres : (setAttributes now ino (some s) none none).dir = true := by
      show (applySize { ino with attrMtime := now } (some s)).dir = _
      rw [applySize_dir]
      exact hdir
    refine ⟨by rw [hcnew]; rfl, ?_⟩
    simp [checkInvariants, hdres, hcnew]
  · intro ino now s hfile hck
    simp only [checkInvariants, hfile, Bool.and_eq_true, decide_eq_true_eq] at hck
    have hdres : (setAttributes now ino (some s) none none).dir = ino.dir := by
      show (applySize { ino with attrMtime := now } (some s)).dir = _
      rw [applySize_dir]
    have hlink : (setAttributes now ino (some s) none none).linkCount = ino.linkCount := by
      show (applySize { ino with attrMtime := now } (some s)).linkCount = _
      rw [applySize_linkCount]
    have hmode : (setAttributes now ino (some s) none none).attrMode = ino.attrMode := by
      show (applySize { ino with attrMtime := now } (some s)).attrMode = _
      rw [applySize_mode]
    have hentries : (setAttributes now ino (some s) none none).entries = ino.entries := by
      show (applySize { ino with attrMtime := now } (some s)).entries = _
      rw [applySize_entries]
    have hsz : (setAttributes now ino (some s) none none).attrSize = s := by
      show (applySize { ino with attrMtime := now } (some s)).attrSize = s
      rw [applySize_size]
    have hclen : conLen (setAttributes now ino (some s) none none).contents = s := by
      show conLen (applySize { ino with attrMtime := now } (some s)).contents = s
      rw [applySize_contents]
      exact (sizeBytes ino.contents s).2
    simp only [checkInvariants, hdres, hfile, hlink, hmode, hentries, hsz, hclen,
      Bool.and_eq_true, decide_eq_true_eq]
    refine ⟨⟨⟨⟨?_, ?_⟩, ?_⟩, ?_⟩, ?_⟩
    · exact hck.1.1.1.1
    · exact hck.1.1.1.2
    · exact hck.1.1.2
    · exact hck.1.2
    · simp

/-- Witness for C10: resizing the empty directory to two bytes makes its
contents non-nil and the invariant check fail, while resizing the
concrete file keeps the invariant check passing. -/
theorem setAttributes_kind_witness :
    (setAttributes 5 dirEmpty (some 2) none none).contents.isNone = false ∧
    checkInvariants (setAttributes 5 dirEmpty (some 2) none none) = false ∧
    checkInvariants (setAttributes 5 fileAB (some 7) none none) = true :=
  ⟨((setAttributes_kind_unchecked).1 dirEmpty 5 2 rfl (by decide) (by decide)).1,
   ((setAttributes_kind_unchecked).1 dirEmpty 5 2 rfl (by decide) (by decide)).2,
   (setAttributes_kind_unchecked).2 fileAB 5 7 rfl (by decide)⟩

end Memfs
